import Mathlib

/-!
Verification development for the `keyman` SSH key manager (`src/main.go`).

The program is single-threaded line-oriented text processing.  We embed it
shallowly: Go strings become `List Char` (`Str`), Go's `map[string][]string`
becomes an insertion-ordered association list (`Config`) with the map
operations `mapGet` / `mapSet`, and the filesystem becomes an association
list from paths to contents (`FileSys`).  Go's map iteration order is
unspecified; the one place where the program observes it (`getLastHost`,
which ranges over the map and keeps the last key seen) is modelled by a
`pick` parameter constrained only by `admissiblePick`: on a non-empty key
list it may return any member, and on an empty map it returns the empty
string (the zero value of the Go string variable).
-/

namespace Keyman

/-- Strings are modelled as their character sequences. -/
abbrev Str := List Char

/-- View of a Lean string literal as the model representation. -/
def str (s : String) : Str := s.toList

/-- Go `unicode.IsSpace` restricted to the ASCII range (space, tab,
newline, vertical tab, form feed, carriage return).  The config texts the
program handles are ASCII; the two Latin-1 space characters Go also trims
(NEL, NBSP) are not modelled. -/
def isSpace (c : Char) : Bool :=
  c == ' ' || c == '\t' || c == '\n' || c == '\x0b' || c == '\x0c' || c == '\r'

/-- Go `strings.HasPrefix pre s` (argument order: the prefix first). -/
def strStarts (pre s : Str) : Bool :=
  match pre, s with
  | [], _ => true
  | _ :: _, [] => false
  | p :: ps, c :: cs => p == c && strStarts ps cs

/-- Go `strings.TrimPrefix s pre`. -/
def trimPre (s pre : Str) : Str :=
  if strStarts pre s then s.drop pre.length else s

/-- Go `strings.HasSuffix suf s` (the suffix first). -/
def hasSuf (suf s : Str) : Bool := strStarts suf.reverse s.reverse

/-- Go `strings.TrimSuffix s suf`. -/
def trimSuf (s suf : Str) : Str :=
  if hasSuf suf s then s.take (s.length - suf.length) else s

/-- Go `strings.TrimSpace`, as trimming from the left then from the right. -/
def trimSpace (s : Str) : Str :=
  ((s.dropWhile isSpace).reverse.dropWhile isSpace).reverse

/-- Go `strings.Split s (String sep)` for a one-character separator. -/
def splitOnChar (sep : Char) : Str → List Str
  | [] => [[]]
  | c :: cs =>
    if c == sep then [] :: splitOnChar sep cs
    else
      match splitOnChar sep cs with
      | [] => [[c]]
      | t :: ts => (c :: t) :: ts

/-- Go `strings.Join parts (String sep)` for a one-character separator. -/
def joinChar (sep : Char) : List Str → Str
  | [] => []
  | s :: rest =>
    match rest with
    | [] => s
    | _ :: _ => s ++ sep :: joinChar sep rest

/-- One step of Go `path/filepath.Clean` (Unix rules): push one path
component onto the stack of kept components (stack held in reverse). -/
def cleanPush (rooted : Bool) (stack : List Str) (comp : Str) : List Str :=
  if comp = [] ∨ comp = ['.'] then stack
  else if comp = ['.', '.'] then
    match stack with
    | [] => if rooted then [] else [['.', '.']]
    | top :: rest => if top = ['.', '.'] then comp :: top :: rest else rest
  else comp :: stack

/-- Go `path/filepath.Clean` (Unix): lexical path normalisation. -/
def filepathClean (p : Str) : Str :=
  match p with
  | [] => ['.']
  | c :: _ =>
    let rooted := c == '/'
    let comps := (splitOnChar '/' p).foldl (cleanPush rooted) []
    let body := joinChar '/' comps.reverse
    if rooted then '/' :: body
    else if body = [] then ['.'] else body

/-- Go `path/filepath.Join a b` (Unix): join with a separator, then clean;
empty elements are skipped. -/
def filepathJoin (a b : Str) : Str :=
  if a = [] ∧ b = [] then []
  else if a = [] then filepathClean b
  else filepathClean (a ++ '/' :: b)

/-- Go `path/filepath.IsAbs` (Unix). -/
def isAbs (p : Str) : Bool := strStarts ['/'] p

/-- Go `path/filepath.Abs` (Unix) with the working directory passed in
explicitly: clean an absolute path, otherwise join it to the working
directory. -/
def filepathAbs (cwd p : Str) : Str :=
  if isAbs p then filepathClean p else filepathJoin cwd p

/-- Go `path/filepath.Base` (Unix): strip trailing separators, then keep
everything after the last separator. -/
def filepathBase (p : Str) : Str :=
  match p with
  | [] => ['.']
  | _ =>
    let p1 := (p.reverse.dropWhile (fun c => c == '/')).reverse
    if p1 = [] then ['/']
    else (p1.reverse.takeWhile (fun c => c != '/')).reverse

/-- The ambient process environment read by `user.Current()` and
`os.Getwd()`: the home directory and the working directory. -/
structure Env where
  homeDir : Str
  cwd : Str

/-- `expandPath` from `src/main.go`: a path starting with `~` is joined
under the home directory (dropping the `~`), any other path is made
absolute against the working directory. -/
def expandPath (env : Env) (path : Str) : Str :=
  if strStarts ['~'] path then filepathJoin env.homeDir (path.drop 1)
  else filepathAbs env.cwd path

/-- The in-memory host-to-key-paths mapping (`map[string][]string`),
modelled as an association list whose keys are unique.  The list order is
a bookkeeping device of the embedding; Go exposes no order. -/
abbrev Config := List (Str × List Str)

/-- Go map read `m[k]`: the zero value `nil` (here `[]`) when absent. -/
def mapGet (m : Config) (k : Str) : List Str :=
  match m with
  | [] => []
  | (k2, v) :: rest => if k2 = k then v else mapGet rest k

/-- Go map write `m[k] = v`. -/
def mapSet (m : Config) (k : Str) (v : List Str) : Config :=
  match m with
  | [] => [(k, v)]
  | (k2, v2) :: rest => if k2 = k then (k2, v) :: rest else (k2, v2) :: mapSet rest k v

/-- The key set of the map. -/
def mapKeys (m : Config) : List Str := m.map Prod.fst

/-- `getLastHost` from `src/main.go` ranges over the Go map and returns
the last key produced by the iteration; Go leaves that order unspecified.
A `pick` function (indexed by the parse step, since every iteration may
use a fresh order) models one possible behaviour; it is admissible when it
returns the zero-value empty string on an empty map and any member of the
key set otherwise. -/
def admissiblePick (pick : Nat → List Str → Str) : Prop :=
  ∀ i ks, (ks = [] → pick i ks = []) ∧ (ks ≠ [] → pick i ks ∈ ks)

/-- The iteration order in which the last key seen is the most recently
inserted one (the order the surrounding prose imagines). -/
def lastPickF : Nat → List Str → Str := fun _ ks => ks.getLast?.getD []

/-- An iteration order in which the last key seen is the first ever
inserted. -/
def headPickF : Nat → List Str → Str := fun _ ks => ks.headD []

/-- The literal `"Host "`. -/
def hostMark : Str := str "Host "

/-- The literal `"IdentityFile "`. -/
def identMark : Str := str "IdentityFile "

/-- One line of `parseConfig` from `src/main.go`: trim the line; a
`Host ` line registers the host with a nil key list, an `IdentityFile `
line appends the expanded path under `getLastHost`, anything else is
ignored. -/
def parseStep (env : Env) (pickh : List Str → Str) (m : Config) (rawLine : Str) : Config :=
  let line := trimSpace rawLine
  if strStarts hostMark line then
    let host := trimSpace (trimPre line hostMark)
    mapSet m host []
  else if strStarts identMark line then
    let keyPath := expandPath env (trimSpace (trimPre line identMark))
    let host := pickh (mapKeys m)
    mapSet m host (mapGet m host ++ [keyPath])
  else m

/-- The line loop of `parseConfig`, threading the line index into `pick`
so each `getLastHost` call may observe a different iteration order. -/
def parseLines (env : Env) (pick : Nat → List Str → Str) : Nat → Config → List Str → Config
  | _, m, [] => m
  | i, m, l :: ls => parseLines env pick (i + 1) (parseStep env (pick i) m l) ls

/-- `parseConfig` from `src/main.go`, applied to the text of the config
file: split on newlines and fold `parseStep` over the lines. -/
def parseConfigStr (env : Env) (pick : Nat → List Str → Str) (content : Str) : Config :=
  parseLines env pick 0 [] (splitOnChar '\n' content)

/-- Go `sort.Strings`: ascending lexicographic order.  On the duplicate-free
key list of a map the sorted permutation is unique, so any correct sort
models it; insertion sort is used here. -/
def sortStrs (l : List Str) : List Str := List.insertionSort (· ≤ ·) l

/-- The lines `writeConfig` emits for a host with the given key paths:
the `Host ` line, one indented `IdentityFile ` line per key path in list
order, then a blank separator line. -/
def blockLines (host : Str) (paths : List Str) : List Str :=
  (str "Host " ++ host) :: (paths.map (fun p => str "  IdentityFile " ++ p) ++ [[]])

/-- The lines `writeConfig` emits for one host of the mapping. -/
def hostBlock (m : Config) (host : Str) : List Str :=
  blockLines host (mapGet m host)

/-- The line loop of `writeConfig` from `src/main.go`: hosts sorted
ascending, each host contributing its block of lines. -/
def writeConfigLines (m : Config) : List Str :=
  (sortStrs (mapKeys m)).foldl (fun lines host => lines ++ hostBlock m host) []

/-- `writeConfig` from `src/main.go`: the full file content written
(lines joined by newlines; the file is replaced wholesale). -/
def writeConfigStr (m : Config) : Str := joinChar '\n' (writeConfigLines m)

/-- Result of running `mapKey`: the mapping afterwards, whether the
config file was written, and the message printed. -/
structure MapResult where
  config : Config
  wrote : Bool
  message : Str

/-- `mapKey` from `src/main.go`: refuse (without writing) when the host
already has at least one key, otherwise append the caller-supplied key
string and write the config. -/
def mapKeyRun (m : Config) (key host : Str) : MapResult :=
  if (mapGet m host).length ≥ 1 then
    ⟨m, false,
      str "The host " ++ host ++
        str " already has a key mapped. Please unmap the current key before mapping a new one.\n"⟩
  else
    ⟨mapSet m host (mapGet m host ++ [key]), true,
      str "Mapped key " ++ key ++ str " to host " ++ host ++ str "\n"⟩

/-- Remove the first occurrence of `k` (the loop-with-break in
`unmapKey` and `deleteKey`). -/
def removeFirst (l : List Str) (k : Str) : List Str :=
  match l with
  | [] => []
  | x :: xs => if x = k then xs else x :: removeFirst xs k

/-- The mapping transform of `unmapKey` from `src/main.go`: drop the
first entry under `host` equal (byte for byte) to `key`; if none matches
the mapping is left as parsed. -/
def unmapKey (m : Config) (key host : Str) : Config :=
  let keyPaths := mapGet m host
  if key ∈ keyPaths then mapSet m host (removeFirst keyPaths key) else m

/-- Result of running `unmapKey`: the mapping, the file content written
(unconditionally), and the message printed (unconditionally). -/
structure UnmapResult where
  config : Config
  fileContent : Str
  message : Str

/-- `unmapKey` from `src/main.go` as a whole: transform the mapping,
rewrite the config file, print the success message — the last two happen
whether or not anything matched. -/
def unmapRun (m : Config) (key host : Str) : UnmapResult :=
  let m2 := unmapKey m key host
  ⟨m2, writeConfigStr m2, str "Unmapped key " ++ key ++ str " from host " ++ host ++ str "\n"⟩

/-- The filesystem fragment the program touches: paths mapped to file
contents. -/
abbrev FileSys := List (Str × Str)

/-- Content of a file, when present. -/
def fsGet (fs : FileSys) (p : Str) : Option Str :=
  match fs with
  | [] => none
  | (q, c) :: rest => if q = p then some c else fsGet rest p

/-- Go `os.WriteFile`: create or truncate, replacing any prior content. -/
def fsSet (fs : FileSys) (p c : Str) : FileSys :=
  match fs with
  | [] => [(p, c)]
  | (q, c2) :: rest => if q = p then (q, c) :: rest else (q, c2) :: fsSet rest p c

/-- Go `os.Remove`: delete the file, failing (`none`) when it does not
exist. -/
def fsRemove (fs : FileSys) (p : Str) : Option FileSys :=
  match fs with
  | [] => none
  | (q, c) :: rest =>
    if q = p then some rest
    else
      match fsRemove rest p with
      | none => none
      | some fs2 => some ((q, c) :: fs2)

/-- `getFullKeyPath` from `src/main.go`: absolute keys pass through,
anything else resolves under the SSH directory. -/
def getFullKeyPath (sshPath key : Str) : Str :=
  if isAbs key then key else filepathJoin sshPath key

/-- The per-host body of the config-scrubbing loop in `deleteKey`: on the
first entry equal to `p` remove it and break, dropping the host when its
list becomes empty; `none` means the host is deleted from the map. -/
def deleteEntryHost (p : Str) (paths : List Str) : Option (List Str) :=
  if p ∈ paths then
    let r := removeFirst paths p
    if r = [] then none else some r
  else some paths

/-- The config transform of `deleteKey`: every host is visited once (the
loop only edits the entry under iteration, so iteration order does not
affect the result). -/
def deleteFromConfig (m : Config) (p : Str) : Config :=
  m.filterMap (fun e =>
    match deleteEntryHost p e.2 with
    | none => none
    | some r => some (e.1, r))

/-- `deleteKey` from `src/main.go`: resolve the key to its full path,
remove the private key file, then the `.pub` companion — aborting fatally
at the first failed removal (the error carries the filesystem as left
behind) — then scrub the parsed mapping and rewrite the config file. -/
def deleteKeyRun (sshPath configPath : Str) (fs : FileSys) (m : Config) (key : Str) :
    Except FileSys (FileSys × Config) :=
  let fullKeyPath := getFullKeyPath sshPath key
  match fsRemove fs fullKeyPath with
  | none => .error fs
  | some fs1 =>
    match fsRemove fs1 (fullKeyPath ++ str ".pub") with
    | none => .error fs1
    | some fs2 =>
      let m2 := deleteFromConfig m fullKeyPath
      .ok (fsSet fs2 configPath (writeConfigStr m2), m2)

/-- A key discovered by the inventory scanner (`getKeys`): the base name
(public-key filename with `.pub` stripped) and the full path of the
public-key file.  The creation time and comment `getKeys` also collects
are display-only and not needed by the claims modelled here. -/
structure SshKey where
  name : Str
  path : Str
deriving DecidableEq

/-- `getKeys` from `src/main.go` over a directory listing (entry name and
whether the entry is a directory): non-directory entries ending in `.pub`
become keys. -/
def getKeys (sshPath : Str) (files : List (Str × Bool)) : List SshKey :=
  (files.filter (fun f => !f.2 && hasSuf (str ".pub") f.1)).map
    (fun f => ⟨trimSuf f.1 (str ".pub"), filepathJoin sshPath f.1⟩)

/-- The `usedKeys` set built by `listUnusedKeys`: the basenames of every
stored key path across all hosts (a Go `map[string]bool` used as a set,
modelled by list membership). -/
def usedKeysSet (m : Config) : List Str :=
  m.foldl (fun acc e => acc ++ e.2.map filepathBase) []

/-- `listUnusedKeys` from `src/main.go` (its computation; printing
aside): the inventory keys whose name is not among the stored basenames. -/
def listUnusedKeys (keys : List SshKey) (m : Config) : List SshKey :=
  keys.filter (fun k => !(usedKeysSet m).contains k.name)

/-- `isKeyUsed` from `src/main.go` (the audit command's test): the key's
own basename with `.pub` stripped equals the basename of some stored
path. -/
def isKeyUsed (key : SshKey) (m : Config) : Bool :=
  m.any (fun e => e.2.any (fun p =>
    trimSuf (filepathBase key.path) (str ".pub") == filepathBase p))

/-- `findMultipleMappings` from `src/main.go`: invert the mapping (one
host occurrence appended per stored path occurrence), then keep the
entries whose host list has length greater than one. -/
def findMultipleMappings (m : Config) : Config :=
  let keyMappings := m.foldl
    (fun acc e => e.2.foldl (fun acc2 p => mapSet acc2 p (mapGet acc2 p ++ [e.1])) acc) []
  keyMappings.filter (fun e => e.2.length > 1)

/-- Reference description of the inverted mapping: for each host, one
occurrence of the host name per occurrence of `p` in its key list, in
entry order. -/
def hostsFor (m : Config) (p : Str) : List Str :=
  (m.map (fun e => List.replicate (e.2.count p) e.1)).flatten

/-- A string that survives the writer-then-parser trip textually: it is
non-empty, has no space character at either end (so trimming preserves
it) and contains no newline (so line splitting preserves it). -/
def cleanToken (s : Str) : Bool :=
  !s.isEmpty && !isSpace (s.headD 'A') && !isSpace (s.reverse.headD 'A') && !s.contains '\n'

example : strStarts (str "Host ") (str "Host foo") = true := by decide

example : trimSpace (str "  Host foo  ") = str "Host foo" := by decide

example : filepathClean (str "/home/u//.ssh/id_a") = str "/home/u/.ssh/id_a" := by decide

example : filepathJoin (str "/home/u") (str "/.ssh/id_a") = str "/home/u/.ssh/id_a" := by decide

example : filepathBase (str "/home/u/.ssh/a") = str "a" := by decide

example :
    parseConfigStr ⟨str "/home/u", str "/cwd"⟩ lastPickF
      (str "Host foo\n  IdentityFile ~/.ssh/id_a\n\nHost bar\n  IdentityFile /abs/id_b\n") =
    [(str "foo", [str "/home/u/.ssh/id_a"]), (str "bar", [str "/abs/id_b"])] := by decide

example :
    parseConfigStr ⟨str "/home/u", str "/cwd"⟩ headPickF
      (str "Host foo\n  IdentityFile ~/.ssh/id_a\n\nHost bar\n  IdentityFile /abs/id_b\n") =
    [(str "foo", [str "/home/u/.ssh/id_a", str "/abs/id_b"]), (str "bar", [])] := by decide

example :
    writeConfigStr [(str "foo", [str "/home/u/.ssh/id_a"]), (str "bar", [str "/abs/id_b"])] =
    str "Host bar\n  IdentityFile /abs/id_b\n\nHost foo\n  IdentityFile /home/u/.ssh/id_a\n" := by
  decide

theorem mapGet_set_self (m : Config) (k : Str) (v : List Str) : mapGet (mapSet m k v) k = v := by
  induction m with
  | nil => simp [mapGet, mapSet]
  | cons e rest ih =>
    obtain ⟨k2, v2⟩ := e
    by_cases h : k2 = k
    · simp [mapGet, mapSet, h]
    · simp [mapGet, mapSet, h, ih]

theorem mapGet_set_ne (m : Config) (k k2 : Str) (v : List Str) (h : k2 ≠ k) :
    mapGet (mapSet m k v) k2 = mapGet m k2 := by
  have hks : ¬k = k2 := fun hh => h hh.symm
  induction m with
  | nil => simp [mapGet, mapSet, hks]
  | cons e rest ih =>
    obtain ⟨k3, v3⟩ := e
    by_cases h3 : k3 = k
    · subst h3
      simp [mapGet, mapSet, hks]
    · simp [mapGet, mapSet, h3, ih]

theorem mapKeys_set (m : Config) (k : Str) (v : List Str) :
    mapKeys (mapSet m k v) = if k ∈ mapKeys m then mapKeys m else mapKeys m ++ [k] := by
  induction m with
  | nil => simp [mapKeys, mapSet]
  | cons e rest ih =>
    obtain ⟨k2, v2⟩ := e
    by_cases h : k2 = k
    · simp [mapKeys, mapSet, h]
    · have hne : ¬k = k2 := fun hh => h hh.symm
      by_cases hmem : k ∈ mapKeys rest <;>
        simp_all [mapKeys, mapSet, h, hne]

theorem mem_keys_set (m : Config) (k : Str) (v : List Str) (k2 : Str) (h : k2 ∈ mapKeys m) :
    k2 ∈ mapKeys (mapSet m k v) := by
  rw [mapKeys_set]
  split <;> simp [h]

theorem mapSet_fresh (m : Config) (k : Str) (v : List Str) (h : k ∉ mapKeys m) :
    mapSet m k v = m ++ [(k, v)] := by
  induction m with
  | nil => simp [mapSet]
  | cons e rest ih =>
    obtain ⟨k2, v2⟩ := e
    simp only [mapKeys, List.map_cons, List.mem_cons] at h
    push_neg at h
    have hne : ¬k2 = k := fun hh => h.1 hh.symm
    simp [mapSet, hne, ih h.2]

theorem mapGet_of_not_mem (m : Config) (k : Str) (h : k ∉ mapKeys m) : mapGet m k = [] := by
  induction m with
  | nil => rfl
  | cons e rest ih =>
    obtain ⟨k2, v2⟩ := e
    simp only [mapKeys, List.map_cons, List.mem_cons] at h
    push_neg at h
    have hne : ¬k2 = k := fun hh => h.1 hh.symm
    simp [mapGet, hne, ih h.2]

theorem mem_keys_of_get_ne (m : Config) (k : Str) (h : mapGet m k ≠ []) : k ∈ mapKeys m := by
  by_contra hk
  exact h (mapGet_of_not_mem m k hk)

theorem mapGet_append_fresh (m : Config) (k : Str) (v : List Str) (h : k ∉ mapKeys m) :
    mapGet (m ++ [(k, v)]) k = v := by
  induction m with
  | nil => simp [mapGet]
  | cons e rest ih =>
    obtain ⟨k2, v2⟩ := e
    simp only [mapKeys, List.map_cons, List.mem_cons] at h
    push_neg at h
    have hne : ¬k2 = k := fun hh => h.1 hh.symm
    simp [mapGet, hne, ih h.2]

theorem mapSet_append_fresh (m : Config) (k : Str) (u v : List Str) (h : k ∉ mapKeys m) :
    mapSet (m ++ [(k, u)]) k v = m ++ [(k, v)] := by
  induction m with
  | nil => simp [mapSet]
  | cons e rest ih =>
    obtain ⟨k2, v2⟩ := e
    simp only [mapKeys, List.map_cons, List.mem_cons] at h
    push_neg at h
    have hne : ¬k2 = k := fun hh => h.1 hh.symm
    simp [mapSet, hne, ih h.2]

theorem pair_mem_of_mem_keys (m : Config) (k : Str) (h : k ∈ mapKeys m) :
    (k, mapGet m k) ∈ m := by
  induction m with
  | nil => simp [mapKeys] at h
  | cons e rest ih =>
    obtain ⟨k2, v2⟩ := e
    by_cases h2 : k2 = k
    · subst h2
      simp [mapGet]
    · simp only [mapKeys, List.map_cons, List.mem_cons] at h
      rcases h with h | h
      · exact absurd h.symm h2
      · simp [mapGet, h2, ih h]

theorem strStarts_append (p s : Str) : strStarts p (p ++ s) = true := by
  induction p with
  | nil => simp [strStarts]
  | cons c cs ih => simp [strStarts, ih]

theorem strStarts_iff (p s : Str) : strStarts p s = true ↔ ∃ t, s = p ++ t := by
  induction p generalizing s with
  | nil => simp [strStarts]
  | cons c cs ih =>
    cases s with
    | nil => simp [strStarts]
    | cons d ds =>
      simp only [strStarts, Bool.and_eq_true, beq_iff_eq, ih, List.cons_append,
        List.cons.injEq]
      constructor
      · rintro ⟨rfl, t, rfl⟩
        exact ⟨t, rfl, rfl⟩
      · rintro ⟨t, rfl, rfl⟩
        exact ⟨rfl, t, rfl⟩

theorem trimPre_append (p s : Str) : trimPre (p ++ s) p = s := by
  simp [trimPre, strStarts_append, List.drop_left]

theorem trimSuf_concat (g s : Str) : trimSuf (g ++ s) s = g := by
  have hs : hasSuf s (g ++ s) = true := by
    simp [hasSuf, List.reverse_append, strStarts_append]
  simp [trimSuf, hs, List.take_left]

theorem headD_append (l l2 : Str) (d : Char) (h : l ≠ []) : (l ++ l2).headD d = l.headD d := by
  cases l with
  | nil => exact absurd rfl h
  | cons c cs => simp

theorem dropWhile_head (l : Str) (h : isSpace (l.headD 'A') = false) :
    l.dropWhile isSpace = l := by
  cases l with
  | nil => rfl
  | cons c cs =>
    simp only [List.headD_cons] at h
    simp [List.dropWhile_cons, h]

theorem trimSpace_eq_self (s : Str) (h1 : isSpace (s.headD 'A') = false)
    (h2 : isSpace (s.reverse.headD 'A') = false) : trimSpace s = s := by
  unfold trimSpace
  rw [dropWhile_head _ h1, dropWhile_head _ h2, List.reverse_reverse]

theorem cleanToken_spec (s : Str) (h : cleanToken s = true) :
    s ≠ [] ∧ isSpace (s.headD 'A') = false ∧ isSpace (s.reverse.headD 'A') = false ∧
      ('\n' : Char) ∉ s := by
  simp only [cleanToken, Bool.and_eq_true, Bool.not_eq_true'] at h
  refine ⟨?_, h.1.1.2, h.1.2, ?_⟩
  · simpa using h.1.1.1
  · simpa using h.2

theorem removeFirst_of_not_mem (l : List Str) (k : Str) (h : k ∉ l) : removeFirst l k = l := by
  induction l with
  | nil => rfl
  | cons x xs ih =>
    simp only [List.mem_cons] at h
    push_neg at h
    have hne : ¬x = k := fun hh => h.1 hh.symm
    simp [removeFirst, hne, ih h.2]

theorem removeFirst_append (a b : List Str) (k : Str) (h : k ∉ a) :
    removeFirst (a ++ k :: b) k = a ++ b := by
  induction a with
  | nil => simp [removeFirst]
  | cons x xs ih =>
    simp only [List.mem_cons] at h
    push_neg at h
    have hne : ¬x = k := fun hh => h.1 hh.symm
    simp [removeFirst, hne, ih h.2]

theorem foldl_append_flatten {α β : Type} (g : α → List β) (m : List α) (acc : List β) :
    m.foldl (fun a e => a ++ g e) acc = acc ++ (m.map g).flatten := by
  induction m generalizing acc with
  | nil => simp
  | cons e rest ih => simp [ih]

theorem usedKeysSet_eq (m : Config) :
    usedKeysSet m = (m.map (fun e => e.2.map filepathBase)).flatten := by
  simpa [usedKeysSet] using foldl_append_flatten (fun e : Str × List Str => e.2.map filepathBase) m []

theorem mem_usedKeysSet (m : Config) (x : Str) :
    x ∈ usedKeysSet m ↔ ∃ e ∈ m, ∃ p ∈ e.2, filepathBase p = x := by
  rw [usedKeysSet_eq]
  simp only [List.mem_flatten, List.mem_map]
  constructor
  · rintro ⟨l, ⟨e, he, rfl⟩, hx⟩
    obtain ⟨p, hp, hpx⟩ := List.mem_map.mp hx
    exact ⟨e, he, p, hp, hpx⟩
  · rintro ⟨e, he, p, hp, hpx⟩
    exact ⟨e.2.map filepathBase, ⟨e, he, rfl⟩, List.mem_map.mpr ⟨p, hp, hpx⟩⟩

theorem keyMap_inner (paths : List Str) (acc : Config) (h q : Str) :
    mapGet (paths.foldl (fun a p => mapSet a p (mapGet a p ++ [h])) acc) q =
      mapGet acc q ++ List.replicate (paths.count q) h := by
  induction paths generalizing acc with
  | nil => simp
  | cons p rest ih =>
    simp only [List.foldl_cons]
    rw [ih]
    by_cases hpq : p = q
    · subst hpq
      rw [mapGet_set_self]
      simp [List.count_cons, List.replicate_succ, List.append_assoc]
    · have hqp : ¬q = p := fun hh => hpq hh.symm
      rw [mapGet_set_ne _ _ _ _ hqp]
      simp [List.count_cons, hqp]

theorem keyMap_outer (m : Config) (acc : Config) (q : Str) :
    mapGet (m.foldl
        (fun acc2 e => e.2.foldl (fun a p => mapSet a p (mapGet a p ++ [e.1])) acc2) acc) q =
      mapGet acc q ++ hostsFor m q := by
  induction m generalizing acc with
  | nil => simp [hostsFor]
  | cons e rest ih =>
    simp only [List.foldl_cons]
    rw [ih, keyMap_inner]
    simp [hostsFor]

theorem nodup_keys_set (m : Config) (k : Str) (v : List Str) (h : (mapKeys m).Nodup) :
    (mapKeys (mapSet m k v)).Nodup := by
  rw [mapKeys_set]
  split
  · exact h
  · next hmem => simp [List.Nodup.append, h, hmem]

theorem keyMap_inner_nodup (paths : List Str) (acc : Config) (h : Str)
    (hnd : (mapKeys acc).Nodup) :
    (mapKeys (paths.foldl (fun a p => mapSet a p (mapGet a p ++ [h])) acc)).Nodup := by
  induction paths generalizing acc with
  | nil => exact hnd
  | cons p rest ih =>
    simp only [List.foldl_cons]
    exact ih _ (nodup_keys_set _ _ _ hnd)

theorem keyMap_outer_nodup (m : Config) (acc : Config) (hnd : (mapKeys acc).Nodup) :
    (mapKeys (m.foldl
        (fun acc2 e => e.2.foldl (fun a p => mapSet a p (mapGet a p ++ [e.1])) acc2) acc)).Nodup := by
  induction m generalizing acc with
  | nil => exact hnd
  | cons e rest ih =>
    simp only [List.foldl_cons]
    exact ih _ (keyMap_inner_nodup _ _ _ hnd)

theorem keys_filter_sub (m : Config) (f : Str × List Str → Bool) (k : Str)
    (h : k ∈ mapKeys (m.filter f)) : k ∈ mapKeys m := by
  simp only [mapKeys, List.mem_map] at h ⊢
  obtain ⟨e, he, hk⟩ := h
  exact ⟨e, (List.mem_filter.mp he).1, hk⟩

theorem value_eq_of_mem (m : Config) (hnd : (mapKeys m).Nodup) (k : Str) (v : List Str)
    (h : (k, v) ∈ m) : mapGet m k = v := by
  induction m with
  | nil => simp at h
  | cons e rest ih =>
    obtain ⟨k2, v2⟩ := e
    simp only [mapKeys, List.map_cons, List.nodup_cons] at hnd
    rcases List.mem_cons.mp h with h1 | h1
    · obtain ⟨rfl, rfl⟩ := Prod.mk.injEq .. ▸ h1
      simp_all [mapGet]
    · have hk2 : ¬k2 = k := by
        intro hh
        subst hh
        exact hnd.1 (List.mem_map.mpr ⟨(k2, v), h1, rfl⟩)
      simp [mapGet, hk2, ih hnd.2 h1]

theorem mapGet_filter_len (km : Config) (hnd : (mapKeys km).Nodup) (q : Str) :
    mapGet (km.filter (fun e => e.2.length > 1)) q =
      if (mapGet km q).length > 1 then mapGet km q else [] := by
  induction km with
  | nil => simp [mapGet]
  | cons e rest ih =>
    obtain ⟨k, v⟩ := e
    simp only [mapKeys, List.map_cons, List.nodup_cons] at hnd
    by_cases hq : k = q
    · subst hq
      have hrest : mapGet (rest.filter (fun e => e.2.length > 1)) k = [] := by
        apply mapGet_of_not_mem
        intro hmem
        exact hnd.1 (keys_filter_sub rest _ k hmem)
      by_cases hv : v.length > 1
      · simp [List.filter_cons, hv, mapGet]
      · simp [List.filter_cons, hv, mapGet, hrest]
    · by_cases hv : v.length > 1
      · simp [List.filter_cons, hv, mapGet, hq, ih hnd.2]
      · simp [List.filter_cons, hv, mapGet, hq, ih hnd.2]

theorem mem_keys_filter_len (km : Config) (hnd : (mapKeys km).Nodup) (q : Str) :
    q ∈ mapKeys (km.filter (fun e => e.2.length > 1)) ↔ (mapGet km q).length > 1 := by
  constructor
  · intro h
    simp only [mapKeys, List.mem_map] at h
    obtain ⟨e, he, hk⟩ := h
    obtain ⟨hmem, hlen⟩ := List.mem_filter.mp he
    obtain ⟨k, v⟩ := e
    subst hk
    rw [value_eq_of_mem km hnd _ v hmem]
    simpa using hlen
  · intro h
    have hne : mapGet km q ≠ [] := by
      intro hh
      rw [hh] at h
      simp at h
    have hqm : q ∈ mapKeys km := mem_keys_of_get_ne km q hne
    have hpair : (q, mapGet km q) ∈ km := pair_mem_of_mem_keys km q hqm
    have : (q, mapGet km q) ∈ km.filter (fun e => e.2.length > 1) :=
      List.mem_filter.mpr ⟨hpair, by simpa using h⟩
    exact List.mem_map.mpr ⟨(q, mapGet km q), this, rfl⟩

theorem headPickF_adm : admissiblePick headPickF := by
  intro i ks
  constructor
  · intro h
    subst h
    rfl
  · intro h
    cases ks with
    | nil => exact absurd rfl h
    | cons a l => simp [headPickF]

theorem lastPickF_adm : admissiblePick lastPickF := by
  intro i ks
  constructor
  · intro h
    subst h
    rfl
  · intro h
    cases ks with
    | nil => exact absurd rfl h
    | cons a l =>
      rw [lastPickF, List.getLast?_eq_getLast _ (by simp), Option.getD_some]
      exact List.getLast_mem _

/-- C1: the claim says every `IdentityFile` line is attached to the
most-recently-declared `Host` line, and that the two-host example parses
to `{foo: [<home>/.ssh/id_a], bar: [/abs/id_b]}`.  The code instead asks
`getLastHost`, which returns whichever key a Go map iteration yields
last: that order is unspecified.  Under the admissible iteration order
`headPickF` the second `IdentityFile` line of the example is attached to
`foo`, not `bar`; the claimed result is obtained only under the
favourable order `lastPickF`.  The claim is right about the intent and
the code is wrong (the spec itself directs implementers to an explicit
cursor for this reason). -/
theorem kmC1_lastHost_nondeterministic :
    admissiblePick headPickF
    ∧ parseConfigStr ⟨str "/home/u", str "/cwd"⟩ headPickF
        (str "Host foo\n  IdentityFile ~/.ssh/id_a\n\nHost bar\n  IdentityFile /abs/id_b\n") =
      [(str "foo", [str "/home/u/.ssh/id_a", str "/abs/id_b"]), (str "bar", [])]
    ∧ parseConfigStr ⟨str "/home/u", str "/cwd"⟩ lastPickF
        (str "Host foo\n  IdentityFile ~/.ssh/id_a\n\nHost bar\n  IdentityFile /abs/id_b\n") =
      [(str "foo", [str "/home/u/.ssh/id_a"]), (str "bar", [str "/abs/id_b"])]
    ∧ mapGet (parseConfigStr ⟨str "/home/u", str "/cwd"⟩ headPickF
        (str "Host foo\n  IdentityFile ~/.ssh/id_a\n\nHost bar\n  IdentityFile /abs/id_b\n"))
        (str "bar") ≠ [str "/abs/id_b"] :=
  ⟨headPickF_adm, by decide, by decide, by decide⟩

/-- C2, counterexample: writing the mapping `{h: [k]}` and parsing the
result does not reproduce the mapping — the parser expands the stored
relative path `k` against the working directory, yielding `/cwd/k`.
(The parse here is independent of the map iteration order: only one host
exists.) -/
theorem kmC2_cex :
    writeConfigStr [(str "h", [str "k"])] = str "Host h\n  IdentityFile k\n"
    ∧ mapGet (parseConfigStr ⟨str "/home/u", str "/cwd"⟩ lastPickF
        (writeConfigStr [(str "h", [str "k"])])) (str "h") = [str "/cwd/k"]
    ∧ mapGet (parseConfigStr ⟨str "/home/u", str "/cwd"⟩ headPickF
        (writeConfigStr [(str "h", [str "k"])])) (str "h") = [str "/cwd/k"]
    ∧ mapGet [(str "h", [str "k"])] (str "h") = [str "k"]
    ∧ (str "/cwd/k" : Str) ≠ str "k" := by
  refine ⟨by decide, by decide, by decide, by decide, by decide⟩

/-- C4: `mapKey` refuses (non-fatally, without writing) when the host
already has at least one mapped key, leaving the mapping untouched;
otherwise it appends the caller-supplied key string — unvalidated — to
the host's (empty) list and writes the config. -/
theorem kmC4_mapKey (m : Config) (key host : Str) :
    (mapGet m host ≠ [] →
      mapKeyRun m key host =
        ⟨m, false,
          str "The host " ++ host ++
            str " already has a key mapped. Please unmap the current key before mapping a new one.\n"⟩)
    ∧ (mapGet m host = [] →
        (mapKeyRun m key host).config = mapSet m host [key]
        ∧ (mapKeyRun m key host).wrote = true
        ∧ mapGet (mapKeyRun m key host).config host = [key]
        ∧ ∀ h2, h2 ≠ host → mapGet (mapKeyRun m key host).config h2 = mapGet m h2) := by
  constructor
  · intro h
    have hlen : (mapGet m host).length ≥ 1 := by
      cases hmg : mapGet m host with
      | nil => exact absurd hmg h
      | cons a l => simp
    simp [mapKeyRun, hlen]
  · intro h
    have hlen : ¬(mapGet m host).length ≥ 1 := by simp [h]
    refine ⟨by simp [mapKeyRun, hlen, h], by simp [mapKeyRun, hlen], ?_, ?_⟩
    · simp [mapKeyRun, hlen, h, mapGet_set_self]
    · intro h2 hne
      simp [mapKeyRun, hlen, mapGet_set_ne _ _ _ _ hne]

/-- Witness for C4: the refusal branch at host `h` already holding `k1`,
and the append branch at a fresh host. -/
theorem kmC4_mapKey_witness :
    (mapGet [(str "h", [str "k1"])] (str "h") ≠ [] ∧
      mapKeyRun [(str "h", [str "k1"])] (str "k2") (str "h") =
        ⟨[(str "h", [str "k1"])], false,
          str "The host " ++ str "h" ++
            str " already has a key mapped. Please unmap the current key before mapping a new one.\n"⟩)
    ∧ (mapGet [(str "g", [str "x"])] (str "h") = [] ∧
        (mapKeyRun [(str "g", [str "x"])] (str "k1") (str "h")).config =
          mapSet [(str "g", [str "x"])] (str "h") [str "k1"]) :=
  ⟨⟨by decide, (kmC4_mapKey [(str "h", [str "k1"])] (str "k2") (str "h")).1 (by decide)⟩,
    ⟨by decide, ((kmC4_mapKey [(str "g", [str "x"])] (str "k1") (str "h")).2 (by decide)).1⟩⟩

/-- C5: `unmapKey` removes exactly the first entry of the host's list
equal byte-for-byte to the given key (later duplicates and other hosts
survive); on no match the mapping is unchanged; the config file is
rewritten and the success message printed in every case. -/
theorem kmC5_unmap (m : Config) (key host : Str) :
    mapGet (unmapKey m key host) host = removeFirst (mapGet m host) key
    ∧ (∀ h2, h2 ≠ host → mapGet (unmapKey m key host) h2 = mapGet m h2)
    ∧ (key ∉ mapGet m host → unmapKey m key host = m)
    ∧ (∀ a b, key ∉ a → mapGet m host = a ++ key :: b →
        mapGet (unmapKey m key host) host = a ++ b)
    ∧ (unmapRun m key host).fileContent = writeConfigStr (unmapKey m key host)
    ∧ (unmapRun m key host).message =
        str "Unmapped key " ++ key ++ str " from host " ++ host ++ str "\n" := by
  have hget : mapGet (unmapKey m key host) host = removeFirst (mapGet m host) key := by
    by_cases hmem : key ∈ mapGet m host
    · simp [unmapKey, hmem, mapGet_set_self]
    · simp [unmapKey, hmem, removeFirst_of_not_mem _ _ hmem]
  refine ⟨hget, ?_, ?_, ?_, rfl, rfl⟩
  · intro h2 hne
    by_cases hmem : key ∈ mapGet m host
    · simp [unmapKey, hmem, mapGet_set_ne _ _ _ _ hne]
    · simp [unmapKey, hmem]
  · intro hmem
    simp [unmapKey, hmem]
  · intro a b ha hsplit
    rw [hget, hsplit, removeFirst_append _ _ _ ha]

/-- Witness for C5: unmapping `a` from `h` in `{h: [a, b, a]}` removes
only the first occurrence, and unmapping an absent key is the identity
on the mapping. -/
theorem kmC5_unmap_witness :
    ((str "z" : Str) ∉ mapGet [(str "h", [str "a"])] (str "h") ∧
      unmapKey [(str "h", [str "a"])] (str "z") (str "h") = [(str "h", [str "a"])])
    ∧ mapGet (unmapKey [(str "h", [str "a", str "b", str "a"])] (str "a") (str "h"))
        (str "h") = [str "b", str "a"] :=
  ⟨⟨by decide, (kmC5_unmap [(str "h", [str "a"])] (str "z") (str "h")).2.2.1 (by decide)⟩, by
    rw [(kmC5_unmap [(str "h", [str "a", str "b", str "a"])] (str "a") (str "h")).1]
    decide⟩

/-- C6: `listUnusedKeys` keeps exactly the inventory keys whose name
(the public-key filename with `.pub` stripped) differs from the basename
of every stored key path; with keys `{a, b}` and host `h` mapped to a
path with basename `a`, exactly `{b}` is returned. -/
theorem kmC6_unused :
    (∀ (keys : List SshKey) (m : Config) (k : SshKey),
        k ∈ listUnusedKeys keys m ↔
          k ∈ keys ∧ ∀ e ∈ m, ∀ p ∈ e.2, filepathBase p ≠ k.name)
    ∧ listUnusedKeys
        (getKeys (str "/home/u/.ssh") [(str "a.pub", false), (str "b.pub", false)])
        [(str "h", [str "/home/u/.ssh/a"])] =
      [⟨str "b", str "/home/u/.ssh/b.pub"⟩] := by
  constructor
  · intro keys m k
    rw [listUnusedKeys, List.mem_filter]
    have : ((!(usedKeysSet m).contains k.name) = true) ↔
        ¬(∃ e ∈ m, ∃ p ∈ e.2, filepathBase p = k.name) := by
      rw [← mem_usedKeysSet]
      simp
    rw [this]
    push_neg
    exact Iff.rfl
  · decide

/-- C7, counterexample: a single host listing the same key path twice is
reported by `findMultipleMappings` (its host list has length two), even
though only one host references the path — the code counts occurrences,
not hosts. -/
theorem kmC7_cex :
    mapGet (findMultipleMappings [(str "h", [str "k", str "k"])]) (str "k") =
      [str "h", str "h"]
    ∧ (([(str "h", [str "k", str "k"])] : Config).filter
        (fun e => e.2.contains (str "k"))).length = 1 := by
  refine ⟨by decide, by decide⟩

/-- C7, amended: `findMultipleMappings` reports exactly the key paths
with more than one occurrence across all hosts' key lists (a host
listing a path twice counts twice), pairing each with one host-name
occurrence per stored occurrence, in entry order. -/
theorem kmC7_multiMappings (m : Config) (q : Str) :
    mapGet (findMultipleMappings m) q =
      (if (hostsFor m q).length > 1 then hostsFor m q else [])
    ∧ (q ∈ mapKeys (findMultipleMappings m) ↔ (hostsFor m q).length > 1) := by
  have hget : ∀ r, mapGet (List.foldl
      (fun acc2 e => e.2.foldl (fun a p => mapSet a p (mapGet a p ++ [e.1])) acc2) [] m) r =
      hostsFor m r := by
    intro r
    rw [keyMap_outer]
    rfl
  have hnd : (mapKeys (List.foldl
      (fun acc2 e => e.2.foldl (fun a p => mapSet a p (mapGet a p ++ [e.1])) acc2) [] m)).Nodup :=
    keyMap_outer_nodup m [] (by simp [mapKeys])
  constructor
  · rw [findMultipleMappings, mapGet_filter_len _ hnd, hget]
  · rw [findMultipleMappings, mem_keys_filter_len _ hnd, hget]

theorem fsGet_set_self (fs : FileSys) (p c : Str) : fsGet (fsSet fs p c) p = some c := by
  induction fs with
  | nil => simp [fsGet, fsSet]
  | cons e rest ih =>
    obtain ⟨q, c2⟩ := e
    by_cases h : q = p <;> simp [fsGet, fsSet, h, ih]

theorem writeConfigLines_eq (m : Config) :
    writeConfigLines m = ((sortStrs (mapKeys m)).map (hostBlock m)).flatten := by
  simpa [writeConfigLines] using foldl_append_flatten (hostBlock m) (sortStrs (mapKeys m)) []

/-- C3: the writer emits, for each host in ascending lexicographic
order, a `Host <name>` line, one indented `  IdentityFile <path>` line
per key path in existing list order, and a blank separator line; the
written content replaces whatever the config file previously held. -/
theorem kmC3_writer (m : Config) :
    writeConfigLines m = ((sortStrs (mapKeys m)).map (hostBlock m)).flatten
    ∧ (∀ host, hostBlock m host =
        (str "Host " ++ host) ::
          ((mapGet m host).map (fun p => str "  IdentityFile " ++ p) ++ [[]]))
    ∧ List.Sorted (· ≤ ·) (sortStrs (mapKeys m))
    ∧ (sortStrs (mapKeys m)).Perm (mapKeys m)
    ∧ ∀ (fs : FileSys) (configPath : Str),
        fsGet (fsSet fs configPath (writeConfigStr m)) configPath = some (writeConfigStr m) :=
  ⟨writeConfigLines_eq m, fun _ => rfl, List.sorted_insertionSort _ _,
    List.perm_insertionSort _ _, fun fs p => fsGet_set_self fs p _⟩

theorem not_host_of_ident (s : Str) (h : strStarts identMark s = true) :
    strStarts hostMark s = false := by
  obtain ⟨t, rfl⟩ := (strStarts_iff _ _).mp h
  rfl

theorem parseStep_id (env : Env) (f : List Str → Str) (m : Config) (l : Str)
    (h1 : strStarts hostMark (trimSpace l) = false)
    (h2 : strStarts identMark (trimSpace l) = false) :
    parseStep env f m l = m := by
  simp [parseStep, h1, h2]

theorem parseStep_ident_of (env : Env) (f : List Str → Str) (m : Config) (l : Str)
    (h : strStarts identMark (trimSpace l) = true) :
    parseStep env f m l =
      mapSet m (f (mapKeys m))
        (mapGet m (f (mapKeys m)) ++
          [expandPath env (trimSpace (trimPre (trimSpace l) identMark))]) := by
  simp [parseStep, not_host_of_ident _ h, h]

theorem parseLines_append (env : Env) (pick : Nat → List Str → Str) (i : Nat) (m : Config)
    (xs ys : List Str) :
    parseLines env pick i m (xs ++ ys) =
      parseLines env pick (i + xs.length) (parseLines env pick i m xs) ys := by
  induction xs generalizing i m with
  | nil => simp [parseLines]
  | cons x xs ih =>
    simp only [List.cons_append, parseLines, List.length_cons, List.append_eq]
    have harith : i + 1 + xs.length = i + (xs.length + 1) := by omega
    rw [ih, harith]

theorem mem_keys_parseStep (env : Env) (f : List Str → Str) (m : Config) (l : Str) (k : Str)
    (h : k ∈ mapKeys m) : k ∈ mapKeys (parseStep env f m l) := by
  by_cases h1 : strStarts hostMark (trimSpace l) = true
  · simp only [parseStep, h1, if_true]
    exact mem_keys_set _ _ _ _ h
  · by_cases h2 : strStarts identMark (trimSpace l) = true
    · rw [parseStep_ident_of _ _ _ _ h2]
      exact mem_keys_set _ _ _ _ h
    · rw [parseStep_id _ _ _ _ (by simpa using h1) (by simpa using h2)]
      exact h

theorem mem_keys_parseLines (env : Env) (pick : Nat → List Str → Str) (i : Nat) (m : Config)
    (ls : List Str) (k : Str) (h : k ∈ mapKeys m) :
    k ∈ mapKeys (parseLines env pick i m ls) := by
  induction ls generalizing i m with
  | nil => exact h
  | cons l ls ih => exact ih _ _ (mem_keys_parseStep _ _ _ _ _ h)

/-- C10: when an `IdentityFile` line precedes any `Host` line, the
parser does not fail: `getLastHost` of the empty map returns the Go zero
value `""`, so the expanded path is appended under the empty-string host
name, which then remains a key of the resulting mapping. -/
theorem kmC10_orphanIdentity (env : Env) (pick : Nat → List Str → Str)
    (hadm : admissiblePick pick) (pre : List Str) (l : Str) (rest : List Str)
    (hpre : ∀ l2 ∈ pre, strStarts hostMark (trimSpace l2) = false ∧
      strStarts identMark (trimSpace l2) = false)
    (hl : strStarts identMark (trimSpace l) = true) :
    parseLines env pick 0 [] (pre ++ [l]) =
      [([], [expandPath env (trimSpace (trimPre (trimSpace l) identMark))])]
    ∧ ([] : Str) ∈ mapKeys (parseLines env pick 0 [] (pre ++ l :: rest)) := by
  have hskip : ∀ (ps : List Str),
      (∀ l2 ∈ ps, strStarts hostMark (trimSpace l2) = false ∧
        strStarts identMark (trimSpace l2) = false) →
      ∀ i, parseLines env pick i [] ps = [] := by
    intro ps
    induction ps with
    | nil =>
      intro _ i
      rfl
    | cons p ps ih =>
      intro hps i
      have hp := hps p (List.mem_cons_self p ps)
      rw [parseLines, parseStep_id _ _ _ _ hp.1 hp.2]
      exact ih (fun l2 hl2 => hps l2 (List.mem_cons_of_mem _ hl2)) _
  have hstep : parseLines env pick 0 [] (pre ++ [l]) =
      [([], [expandPath env (trimSpace (trimPre (trimSpace l) identMark))])] := by
    rw [parseLines_append, hskip pre hpre 0]
    rw [show parseLines env pick (0 + pre.length) [] [l] =
        parseStep env (pick (0 + pre.length)) [] l from rfl]
    rw [parseStep_ident_of _ _ _ _ hl]
    rw [(hadm (0 + pre.length) (mapKeys ([] : Config))).1 rfl]
    rfl
  refine ⟨hstep, ?_⟩
  have hsplit : pre ++ l :: rest = (pre ++ [l]) ++ rest := by simp
  rw [hsplit, parseLines_append, hstep]
  exact mem_keys_parseLines _ _ _ _ _ _ (by simp [mapKeys])

/-- Witness for C10: a comment line, then ` IdentityFile /k` before any
`Host` line; the parsed mapping contains the empty-string host. -/
theorem kmC10_orphanIdentity_witness :
    admissiblePick lastPickF
    ∧ (∀ l2 ∈ [str "# comment"], strStarts hostMark (trimSpace l2) = false ∧
        strStarts identMark (trimSpace l2) = false)
    ∧ strStarts identMark (trimSpace (str " IdentityFile /k")) = true
    ∧ ([] : Str) ∈ mapKeys (parseLines ⟨str "/h", str "/c"⟩ lastPickF 0 []
        ([str "# comment"] ++ str " IdentityFile /k" :: [str "Host h"])) :=
  ⟨lastPickF_adm, by decide, by decide,
    (kmC10_orphanIdentity ⟨str "/h", str "/c"⟩ lastPickF lastPickF_adm
      [str "# comment"] (str " IdentityFile /k") [str "Host h"] (by decide) (by decide)).2⟩

theorem splitOnChar_ne_nil (c : Char) (s : Str) : splitOnChar c s ≠ [] := by
  cases s with
  | nil => simp [splitOnChar]
  | cons x xs =>
    simp only [splitOnChar]
    cases h : x == c
    · simp only [Bool.false_eq_true, if_false]
      cases hs : splitOnChar c xs <;> simp
    · simp

theorem splitOnChar_sep_append (c : Char) (xs ys : Str) :
    splitOnChar c (xs ++ c :: ys) = splitOnChar c xs ++ splitOnChar c ys := by
  induction xs with
  | nil => simp [splitOnChar]
  | cons x xs ih =>
    simp only [List.cons_append, splitOnChar, List.append_eq]
    cases h : x == c
    · simp only [Bool.false_eq_true, if_false]
      rw [ih]
      cases hs : splitOnChar c xs with
      | nil => exact absurd hs (splitOnChar_ne_nil c xs)
      | cons t ts => simp
    · simp [ih]

theorem splitOnChar_not_mem (c : Char) (s : Str) (h : c ∉ s) : splitOnChar c s = [s] := by
  induction s with
  | nil => rfl
  | cons x xs ih =>
    simp only [List.mem_cons] at h
    push_neg at h
    have hx : (x == c) = false := beq_eq_false_iff_ne.mpr (fun hh => h.1 hh.symm)
    simp [splitOnChar, hx, ih h.2]

theorem joinChar_concat (c : Char) (l : List Str) (f : Str) (h : l ≠ []) :
    joinChar c (l ++ [f]) = joinChar c l ++ c :: f := by
  induction l with
  | nil => exact absurd rfl h
  | cons s rest ih =>
    cases rest with
    | nil => simp [joinChar]
    | cons s2 rest2 =>
      rw [show (s :: s2 :: rest2) ++ [f] = s :: ((s2 :: rest2) ++ [f]) from rfl]
      rw [show joinChar c (s :: ((s2 :: rest2) ++ [f])) =
          s ++ c :: joinChar c ((s2 :: rest2) ++ [f]) from rfl]
      rw [ih (by simp)]
      rw [show joinChar c (s :: s2 :: rest2) = s ++ c :: joinChar c (s2 :: rest2) from rfl]
      simp

theorem takeWhile_all {p : Char → Bool} (a : Str) (h : ∀ x ∈ a, p x = true) :
    a.takeWhile p = a := by
  induction a with
  | nil => rfl
  | cons x xs ih =>
    simp [List.takeWhile_cons, h x (by simp), ih (fun y hy => h y (by simp [hy]))]

theorem takeWhile_until {p : Char → Bool} (a z : Str) (c : Char) (hc : p c = false)
    (h : ∀ x ∈ a, p x = true) : (a ++ c :: z).takeWhile p = a := by
  induction a with
  | nil => simp [List.takeWhile_cons, hc]
  | cons x xs ih =>
    simp [List.takeWhile_cons, h x (by simp), ih (fun y hy => h y (by simp [hy]))]

theorem filepathBase_of_rev (p : Str) (y : Char) (ys : Str)
    (hrev : p.reverse = y :: ys) (hy : (y == '/') = false) :
    filepathBase p = ((y :: ys).takeWhile (fun c => c != '/')).reverse := by
  have hp : p ≠ [] := by
    intro hh
    rw [hh] at hrev
    simp at hrev
  cases p with
  | nil => exact absurd rfl hp
  | cons a as =>
    simp only [filepathBase, hrev, List.dropWhile_cons, hy, Bool.false_eq_true, if_false]
    simp [hrev]

theorem base_append_slash (X f : Str) (hf : f ≠ []) (hs : ('/' : Char) ∉ f) :
    filepathBase (X ++ '/' :: f) = f := by
  cases hrev : f.reverse with
  | nil =>
    have : f = [] := by simpa using congrArg List.reverse hrev
    exact absurd this hf
  | cons y ys =>
    have hy : y ∈ f := by
      have h1 : y ∈ f.reverse := by
        rw [hrev]
        exact List.mem_cons_self _ _
      exact List.mem_reverse.mp h1
    have hyne : (y == '/') = false := beq_eq_false_iff_ne.mpr (fun hh => hs (hh ▸ hy))
    have hprev : (X ++ '/' :: f).reverse = y :: (ys ++ '/' :: X.reverse) := by
      rw [List.reverse_append]
      simp [hrev]
    rw [filepathBase_of_rev _ _ _ hprev hyne]
    have hsplit : (y :: (ys ++ '/' :: X.reverse)) = (y :: ys) ++ '/' :: X.reverse := by simp
    rw [hsplit, takeWhile_until _ _ _ (by simp) ?hall, ← hrev, List.reverse_reverse]
    case hall =>
      intro x hx
      rw [← hrev] at hx
      have hxf : x ∈ f := List.mem_reverse.mp hx
      exact bne_iff_ne.mpr (fun hh => hs (hh ▸ hxf))

theorem base_no_slash (f : Str) (hf : f ≠ []) (hs : ('/' : Char) ∉ f) :
    filepathBase f = f := by
  cases hrev : f.reverse with
  | nil =>
    have : f = [] := by simpa using congrArg List.reverse hrev
    exact absurd this hf
  | cons y ys =>
    have hy : y ∈ f := by
      have h1 : y ∈ f.reverse := by
        rw [hrev]
        exact List.mem_cons_self _ _
      exact List.mem_reverse.mp h1
    have hyne : (y == '/') = false := beq_eq_false_iff_ne.mpr (fun hh => hs (hh ▸ hy))
    rw [filepathBase_of_rev _ _ _ hrev hyne]
    rw [takeWhile_all _ ?hall, ← hrev, List.reverse_reverse]
    case hall =>
      intro x hx
      rw [← hrev] at hx
      have hxf : x ∈ f := List.mem_reverse.mp hx
      exact bne_iff_ne.mpr (fun hh => hs (hh ▸ hxf))

theorem cleanPush_normal (r : Bool) (st : List Str) (comp : Str)
    (h0 : comp ≠ []) (h1 : comp ≠ ['.']) (h2 : comp ≠ ['.', '.']) :
    cleanPush r st comp = comp :: st := by
  simp [cleanPush, h0, h1, h2]

theorem filepathClean_ne_nil_eq (p : Str) (hp : p ≠ []) :
    filepathClean p =
      (if p.headD 'A' == '/' then
        '/' :: joinChar '/'
          ((splitOnChar '/' p).foldl (cleanPush (p.headD 'A' == '/')) []).reverse
      else if joinChar '/'
          ((splitOnChar '/' p).foldl (cleanPush (p.headD 'A' == '/')) []).reverse = [] then
        ['.']
      else joinChar '/'
          ((splitOnChar '/' p).foldl (cleanPush (p.headD 'A' == '/')) []).reverse) := by
  cases p with
  | nil => exact absurd rfl hp
  | cons c cs => rfl

theorem clean_append_file (d f : Str) (hf : f ≠ []) (hs : ('/' : Char) ∉ f)
    (h1 : f ≠ ['.']) (h2 : f ≠ ['.', '.']) :
    filepathBase (filepathClean (d ++ '/' :: f)) = f := by
  have hpne : d ++ '/' :: f ≠ [] := by simp
  rw [filepathClean_ne_nil_eq _ hpne]
  have hcomps : splitOnChar '/' (d ++ '/' :: f) = splitOnChar '/' d ++ [f] := by
    rw [splitOnChar_sep_append, splitOnChar_not_mem _ _ hs]
  rw [hcomps]
  rw [List.foldl_append]
  rw [List.foldl_cons, List.foldl_nil,
    cleanPush_normal _ _ _ hf h1 h2]
  set rooted := (d ++ '/' :: f).headD 'A' == '/' with hrdef
  set S := List.foldl (cleanPush rooted) [] (splitOnChar '/' d) with hSdef
  cases hS : S.reverse with
  | nil =>
    have hbody : joinChar '/' (f :: S).reverse = f := by
      rw [List.reverse_cons, hS]
      rfl
    cases hr : rooted
    · rw [hbody]
      simp only [hr, Bool.false_eq_true, if_false, hf]
      exact base_no_slash f hf hs
    · rw [hbody]
      simp only [hr, if_true]
      have : ('/' : Char) :: f = [] ++ '/' :: f := rfl
      rw [this]
      exact base_append_slash [] f hf hs
  | cons s ss =>
    have hbody : joinChar '/' (f :: S).reverse =
        joinChar '/' (s :: ss) ++ '/' :: f := by
      rw [List.reverse_cons, hS, joinChar_concat _ _ _ (by simp)]
    cases hr : rooted
    · rw [hbody]
      simp only [hr, Bool.false_eq_true, if_false]
      rw [if_neg (by simp)]
      exact base_append_slash _ f hf hs
    · rw [hbody]
      simp only [hr, if_true]
      have : ('/' : Char) :: (joinChar '/' (s :: ss) ++ '/' :: f) =
          ('/' :: joinChar '/' (s :: ss)) ++ '/' :: f := rfl
      rw [this]
      exact base_append_slash _ f hf hs

theorem base_join (d f : Str) (hf : f ≠ []) (hs : ('/' : Char) ∉ f)
    (h1 : f ≠ ['.']) (h2 : f ≠ ['.', '.']) :
    filepathBase (filepathJoin d f) = f := by
  by_cases hd : d = []
  · subst hd
    rw [filepathJoin, if_neg (by simp [hf]), if_pos rfl]
    rw [filepathClean_ne_nil_eq _ hf]
    have hone : splitOnChar '/' f = [f] := splitOnChar_not_mem _ _ hs
    have hhead : (f.headD 'A' == '/') = false := by
      cases f with
      | nil => exact absurd rfl hf
      | cons c cs =>
        simp only [List.headD_cons]
        exact beq_eq_false_iff_ne.mpr (fun hh => hs (hh ▸ List.mem_cons_self c cs))
    rw [hone, hhead]
    simp only [Bool.false_eq_true, if_false]
    rw [List.foldl_cons, List.foldl_nil, cleanPush_normal _ _ _ hf h1 h2]
    have hbody : joinChar '/' ([f] : List Str).reverse = f := rfl
    rw [hbody, if_neg hf]
    exact base_no_slash f hf hs
  · rw [filepathJoin, if_neg (by simp [hd]), if_neg hd]
    exact clean_append_file d f hf hs h1 h2

theorem hasSuf_decomp (suf s : Str) (h : hasSuf suf s = true) : ∃ g, s = g ++ suf := by
  rw [hasSuf] at h
  obtain ⟨t, ht⟩ := (strStarts_iff _ _).mp h
  refine ⟨t.reverse, ?_⟩
  have := congrArg List.reverse ht
  simpa using this

/-- C9: for inventory keys (as produced by `getKeys` from a directory
listing, whose entry names contain no path separator), the `unused`
command's used test — membership of the key's name among the basenames
of all stored key paths — agrees with the `audit` command's `isKeyUsed`,
which strips `.pub` from the basename of the key's own path before
comparing.  They agree because for a scanned key the basename of its
path is exactly the `.pub`-suffixed filename, so stripping `.pub`
recovers the key's name. -/
theorem kmC9_usedAgree (sshPath : Str) (files : List (Str × Bool)) (m : Config) (k : SshKey)
    (hfiles : ∀ f ∈ files, ('/' : Char) ∉ f.1)
    (hk : k ∈ getKeys sshPath files) :
    ((usedKeysSet m).contains k.name = true) ↔ (isKeyUsed k m = true) := by
  rw [getKeys] at hk
  obtain ⟨f, hf, hfk⟩ := List.mem_map.mp hk
  have hfilter := List.mem_filter.mp hf
  have hsuf : hasSuf (str ".pub") f.1 = true := by
    have h2 := hfilter.2
    simp only [Bool.and_eq_true] at h2
    exact h2.2
  obtain ⟨g, hg⟩ := hasSuf_decomp _ _ hsuf
  have hname : k.name = trimSuf f.1 (str ".pub") := by rw [← hfk]
  have hpath : k.path = filepathJoin sshPath f.1 := by rw [← hfk]
  have hf1ne : f.1 ≠ [] := by
    rw [hg]
    intro hh
    have := congrArg List.length hh
    simp [str] at this
  have hfdot1 : f.1 ≠ ['.'] := by
    rw [hg]
    intro hh
    have := congrArg List.length hh
    simp [str] at this
  have hfdot2 : f.1 ≠ ['.', '.'] := by
    rw [hg]
    intro hh
    have := congrArg List.length hh
    simp [str] at this
  have hbase : filepathBase k.path = f.1 := by
    rw [hpath]
    exact base_join sshPath f.1 hf1ne (hfiles f hfilter.1) hfdot1 hfdot2
  have hkeybase : trimSuf (filepathBase k.path) (str ".pub") = k.name := by
    rw [hbase, hname]
  have hcontains : ((usedKeysSet m).contains k.name = true) ↔ k.name ∈ usedKeysSet m := by
    simp
  rw [hcontains, mem_usedKeysSet, isKeyUsed]
  simp only [List.any_eq_true, beq_iff_eq, hkeybase]
  constructor
  · rintro ⟨e, he, p, hp, hh⟩
    exact ⟨e, he, p, hp, hh.symm⟩
  · rintro ⟨e, he, p, hp, hh⟩
    exact ⟨e, he, p, hp, hh.symm⟩

/-- Witness for C9: the key scanned from `a.pub` under `/home/u/.ssh`,
against a config mapping `h` to `/x/a`: both used tests answer `true`. -/
theorem kmC9_usedAgree_witness :
    (∀ f ∈ [(str "a.pub", false)], ('/' : Char) ∉ f.1)
    ∧ (⟨str "a", str "/home/u/.ssh/a.pub"⟩ : SshKey) ∈
        getKeys (str "/home/u/.ssh") [(str "a.pub", false)]
    ∧ (((usedKeysSet [(str "h", [str "/x/a"])]).contains
          (SshKey.name ⟨str "a", str "/home/u/.ssh/a.pub"⟩) = true) ↔
        (isKeyUsed ⟨str "a", str "/home/u/.ssh/a.pub"⟩ [(str "h", [str "/x/a"])] = true)) :=
  ⟨by decide, by decide,
    kmC9_usedAgree (str "/home/u/.ssh") [(str "a.pub", false)] [(str "h", [str "/x/a"])]
      ⟨str "a", str "/home/u/.ssh/a.pub"⟩ (by decide) (by decide)⟩

theorem splitOnChar_joinChar (c : Char) : ∀ (lines : List Str), lines ≠ [] →
    (∀ l ∈ lines, c ∉ l) → splitOnChar c (joinChar c lines) = lines := by
  intro lines
  induction lines with
  | nil =>
    intro hne _
    exact absurd rfl hne
  | cons l rest ih =>
    intro _ hfree
    cases rest with
    | nil =>
      rw [show joinChar c [l] = l from rfl]
      exact splitOnChar_not_mem c l (hfree l (by simp))
    | cons l2 rest2 =>
      rw [show joinChar c (l :: l2 :: rest2) = l ++ c :: joinChar c (l2 :: rest2) from rfl]
      rw [splitOnChar_sep_append, splitOnChar_not_mem c l (hfree l (by simp))]
      rw [ih (by simp) (fun x hx => hfree x (by simp [hx]))]
      rfl

theorem trimSpace_append_token (mark h : Str) (hm : mark ≠ [])
    (hm1 : isSpace (mark.headD 'A') = false) (hh : cleanToken h = true) :
    trimSpace (mark ++ h) = mark ++ h := by
  obtain ⟨hne, _, hh2, _⟩ := cleanToken_spec h hh
  apply trimSpace_eq_self
  · rw [headD_append _ _ _ hm]
    exact hm1
  · rw [List.reverse_append, headD_append _ _ _ (by simp [hne])]
    exact hh2

theorem trim_identLine (p : Str) (hp : cleanToken p = true) :
    trimSpace (str "  IdentityFile " ++ p) = str "IdentityFile " ++ p := by
  obtain ⟨hne, _, hp2, _⟩ := cleanToken_spec p hp
  unfold trimSpace
  have h1 : (str "  IdentityFile " ++ p).dropWhile isSpace = str "IdentityFile " ++ p := by
    show (str "IdentityFile " ++ p).dropWhile isSpace = str "IdentityFile " ++ p
    exact dropWhile_head _ (by rfl)
  rw [h1, List.reverse_append, dropWhile_head _ ?h2, ← List.reverse_append,
    List.reverse_reverse]
  case h2 =>
    rw [headD_append _ _ _ (by simp [hne])]
    exact hp2

theorem mapKeys_append_single (m : Config) (h : Str) (u : List Str) :
    mapKeys (m ++ [(h, u)]) = mapKeys m ++ [h] := by
  simp [mapKeys]

theorem parseStep_hostLine (env : Env) (f : List Str → Str) (m : Config) (h : Str)
    (hh : cleanToken h = true) :
    parseStep env f m (str "Host " ++ h) = mapSet m h [] := by
  obtain ⟨hne, hh1, hh2, _⟩ := cleanToken_spec h hh
  have htrim : trimSpace (str "Host " ++ h) = str "Host " ++ h :=
    trimSpace_append_token (str "Host ") h (by decide) (by decide) hh
  have hstart : strStarts hostMark (str "Host " ++ h) = true := strStarts_append _ _
  have hpre : trimPre (str "Host " ++ h) hostMark = h := trimPre_append _ _
  simp only [parseStep, htrim, hstart, if_true, hpre, trimSpace_eq_self h hh1 hh2]

theorem parseStep_identLine (env : Env) (f : List Str → Str) (m : Config) (p : Str)
    (hp : cleanToken p = true) (hexp : expandPath env p = p) :
    parseStep env f m (str "  IdentityFile " ++ p) =
      mapSet m (f (mapKeys m)) (mapGet m (f (mapKeys m)) ++ [p]) := by
  obtain ⟨hne, hp1, hp2, _⟩ := cleanToken_spec p hp
  have htrim := trim_identLine p hp
  have hstart : strStarts identMark (trimSpace (str "  IdentityFile " ++ p)) = true := by
    rw [htrim]
    exact strStarts_append _ _
  rw [parseStep_ident_of env f m _ hstart, htrim]
  rw [show trimPre (str "IdentityFile " ++ p) identMark = p from trimPre_append _ _]
  rw [trimSpace_eq_self p hp1 hp2, hexp]

theorem parseLines_identBlock (env : Env) (h : Str) : ∀ (vs : List Str),
    (∀ p ∈ vs, cleanToken p = true ∧ expandPath env p = p) →
    ∀ (i : Nat) (m : Config) (u : List Str), h ∉ mapKeys m →
    parseLines env lastPickF i (m ++ [(h, u)])
      (vs.map (fun p => str "  IdentityFile " ++ p)) = m ++ [(h, u ++ vs)] := by
  intro vs
  induction vs with
  | nil =>
    intro _ i m u _
    simp [parseLines]
  | cons p rest ih =>
    intro hvs i m u hfresh
    obtain ⟨hp, hexp⟩ := hvs p (by simp)
    simp only [List.map_cons, parseLines]
    rw [parseStep_identLine env _ _ p hp hexp]
    have hpick : lastPickF i (mapKeys (m ++ [(h, u)])) = h := by
      rw [mapKeys_append_single]
      simp [lastPickF, List.getLast?_concat]
    rw [hpick, mapGet_append_fresh m h u hfresh, mapSet_append_fresh m h u _ hfresh]
    rw [ih (fun q hq => hvs q (by simp [hq])) _ m (u ++ [p]) hfresh]
    simp

theorem parseLines_block (env : Env) (i : Nat) (m : Config) (h : Str) (vs : List Str)
    (hfresh : h ∉ mapKeys m) (hh : cleanToken h = true)
    (hvs : ∀ p ∈ vs, cleanToken p = true ∧ expandPath env p = p) :
    parseLines env lastPickF i m (blockLines h vs) = m ++ [(h, vs)] := by
  rw [blockLines]
  rw [show parseLines env lastPickF i m
      ((str "Host " ++ h) :: (vs.map (fun p => str "  IdentityFile " ++ p) ++ [[]])) =
    parseLines env lastPickF (i + 1) (parseStep env (lastPickF i) m (str "Host " ++ h))
      (vs.map (fun p => str "  IdentityFile " ++ p) ++ [[]]) from rfl]
  rw [parseStep_hostLine env _ m h hh, mapSet_fresh m h [] hfresh]
  rw [parseLines_append]
  rw [parseLines_identBlock env h vs hvs _ m [] hfresh]
  rw [show parseLines env lastPickF
      (i + 1 + (vs.map (fun p => str "  IdentityFile " ++ p)).length)
      (m ++ [(h, [] ++ vs)]) [[]] =
    parseStep env (lastPickF (i + 1 + (vs.map (fun p => str "  IdentityFile " ++ p)).length))
      (m ++ [(h, [] ++ vs)]) [] from rfl]
  rw [parseStep_id _ _ _ _ (by rfl) (by rfl)]
  simp

theorem parseLines_blocks (env : Env) : ∀ (hosts : List Str) (V : Str → List Str)
    (i : Nat) (m : Config),
    (∀ h ∈ hosts, h ∉ mapKeys m) → hosts.Nodup →
    (∀ h ∈ hosts, cleanToken h = true ∧
      ∀ p ∈ V h, cleanToken p = true ∧ expandPath env p = p) →
    parseLines env lastPickF i m ((hosts.map (fun h => blockLines h (V h))).flatten) =
      m ++ hosts.map (fun h => (h, V h)) := by
  intro hosts
  induction hosts with
  | nil =>
    intro V i m _ _ _
    simp [parseLines]
  | cons h hs ih =>
    intro V i m hfresh hnd hclean
    simp only [List.map_cons, List.flatten_cons]
    rw [parseLines_append]
    rw [parseLines_block env i m h (V h) (hfresh h (by simp)) (hclean h (by simp)).1
      (hclean h (by simp)).2]
    rw [ih V _ _ ?fresh (List.nodup_cons.mp hnd).2
      (fun h2 hh2 => hclean h2 (by simp [hh2]))]
    · simp
    case fresh =>
      intro h2 hh2
      rw [mapKeys_append_single]
      simp only [List.mem_append, List.mem_singleton]
      push_neg
      refine ⟨hfresh h2 (by simp [hh2]), ?_⟩
      intro hh
      exact (List.nodup_cons.mp hnd).1 (hh ▸ hh2)

theorem mapGet_graph (V : Str → List Str) : ∀ (hosts : List Str), hosts.Nodup → ∀ k,
    mapGet (hosts.map (fun h => (h, V h))) k = if k ∈ hosts then V k else [] := by
  intro hosts
  induction hosts with
  | nil =>
    intro _ k
    simp [mapGet]
  | cons h hs ih =>
    intro hnd k
    by_cases hk : h = k
    · subst hk
      simp [mapGet]
    · simp only [List.map_cons, mapGet, hk, if_false]
      rw [ih (List.nodup_cons.mp hnd).2 k]
      have hk2 : ¬k = h := fun hh => hk hh.symm
      by_cases hmem : k ∈ hs
      · simp [hmem, List.mem_cons, hk2]
      · simp [hmem, List.mem_cons, hk2]

theorem blockLines_nlfree (h : Str) (vs : List Str) (hh : cleanToken h = true)
    (hvs : ∀ p ∈ vs, cleanToken p = true) :
    ∀ l ∈ blockLines h vs, ('\n' : Char) ∉ l := by
  intro l hl
  rw [blockLines] at hl
  rcases List.mem_cons.mp hl with rfl | hl2
  · obtain ⟨-, -, -, hnl⟩ := cleanToken_spec h hh
    intro hmem
    rcases List.mem_append.mp hmem with ha | hb
    · exact absurd ha (by decide)
    · exact hnl hb
  · rcases List.mem_append.mp hl2 with hmap | hblank
    · obtain ⟨p, hp, rfl⟩ := List.mem_map.mp hmap
      obtain ⟨-, -, -, hnl⟩ := cleanToken_spec p (hvs p hp)
      intro hmem
      rcases List.mem_append.mp hmem with ha | hb
      · exact absurd ha (by decide)
      · exact hnl hb
    · simp only [List.mem_singleton] at hblank
      subst hblank
      simp

/-- C2, amended: for mappings whose host names and key paths are
non-empty, contain no newline and no space at either end, and whose key
paths are fixed points of the parser's path expansion (for instance
absolute, already-clean paths), and when the parser's last-host lookup
follows declaration order (`lastPickF`; the code's Go-map iteration
makes that lookup nondeterministic, see C1), parsing the writer's output
reproduces the host-to-key-list mapping extensionally. -/
theorem kmC2_roundTrip (env : Env) (m : Config)
    (hnd : (mapKeys m).Nodup)
    (hwf : ∀ e ∈ m, cleanToken e.1 = true ∧
      ∀ p ∈ e.2, cleanToken p = true ∧ expandPath env p = p) :
    ∀ k, mapGet (parseConfigStr env lastPickF (writeConfigStr m)) k = mapGet m k := by
  intro k
  by_cases hm : m = []
  · subst hm
    rfl
  · have hkeysne : mapKeys m ≠ [] := by
      cases m with
      | nil => exact absurd rfl hm
      | cons e r => simp [mapKeys]
    have hperm : (sortStrs (mapKeys m)).Perm (mapKeys m) := List.perm_insertionSort _ _
    have hndh : (sortStrs (mapKeys m)).Nodup := hperm.nodup_iff.mpr hnd
    have hhostsne : sortStrs (mapKeys m) ≠ [] := by
      intro hh
      exact hkeysne (List.Perm.nil_eq (hh ▸ hperm)).symm
    have hclean : ∀ h ∈ sortStrs (mapKeys m), cleanToken h = true ∧
        ∀ p ∈ mapGet m h, cleanToken p = true ∧ expandPath env p = p := by
      intro h hh
      have hmem : h ∈ mapKeys m := hperm.subset hh
      have hpair := pair_mem_of_mem_keys m h hmem
      exact ⟨(hwf _ hpair).1, (hwf _ hpair).2⟩
    have hlines : writeConfigLines m =
        ((sortStrs (mapKeys m)).map (fun h => blockLines h (mapGet m h))).flatten :=
      writeConfigLines_eq m
    have hnlfree : ∀ l ∈ writeConfigLines m, ('\n' : Char) ∉ l := by
      intro l hl
      rw [hlines] at hl
      obtain ⟨b, hb, hlb⟩ := List.mem_flatten.mp hl
      obtain ⟨h, hh, rfl⟩ := List.mem_map.mp hb
      exact blockLines_nlfree h (mapGet m h) (hclean h hh).1
        (fun p hp => ((hclean h hh).2 p hp).1) l hlb
    have hlinesne : writeConfigLines m ≠ [] := by
      rw [hlines]
      cases hcase : sortStrs (mapKeys m) with
      | nil => exact absurd hcase hhostsne
      | cons h hs =>
        simp [blockLines]
    simp only [parseConfigStr, writeConfigStr]
    rw [splitOnChar_joinChar '\n' _ hlinesne hnlfree]
    rw [hlines, parseLines_blocks env (sortStrs (mapKeys m)) (fun h => mapGet m h) 0 []
      (fun h _ => by simp [mapKeys]) hndh hclean]
    rw [List.nil_append, mapGet_graph _ _ hndh k]
    by_cases hk : k ∈ sortStrs (mapKeys m)
    · rw [if_pos hk]
    · rw [if_neg hk, mapGet_of_not_mem m k (fun hmem => hk (hperm.mem_iff.mpr hmem))]

/-- Witness for C2 amended: a two-host mapping with absolute clean paths
round-trips (query at host `h`). -/
theorem kmC2_roundTrip_witness :
    ((mapKeys [(str "h", [str "/a/k"]), (str "g", [str "/b/j"])]).Nodup
    ∧ (∀ e ∈ ([(str "h", [str "/a/k"]), (str "g", [str "/b/j"])] : Config),
        cleanToken e.1 = true ∧
        ∀ p ∈ e.2, cleanToken p = true ∧ expandPath ⟨str "/home/u", str "/cwd"⟩ p = p))
    ∧ mapGet (parseConfigStr ⟨str "/home/u", str "/cwd"⟩ lastPickF
        (writeConfigStr [(str "h", [str "/a/k"]), (str "g", [str "/b/j"])])) (str "h") =
      mapGet [(str "h", [str "/a/k"]), (str "g", [str "/b/j"])] (str "h") :=
  ⟨⟨by decide, by decide⟩,
    kmC2_roundTrip ⟨str "/home/u", str "/cwd"⟩
      [(str "h", [str "/a/k"]), (str "g", [str "/b/j"])] (by decide) (by decide) (str "h")⟩

theorem fsGet_set_ne (fs : FileSys) (p c q : Str) (h : q ≠ p) :
    fsGet (fsSet fs p c) q = fsGet fs q := by
  have hpq : ¬p = q := fun hh => h hh.symm
  induction fs with
  | nil => simp [fsGet, fsSet, hpq]
  | cons e rest ih =>
    obtain ⟨r, c2⟩ := e
    by_cases hr : r = p
    · subst hr
      simp [fsGet, fsSet, hpq]
    · simp [fsGet, fsSet, hr, ih]

theorem fsGet_of_not_mem (p : Str) : ∀ (fs : FileSys), p ∉ fs.map Prod.fst →
    fsGet fs p = none := by
  intro fs
  induction fs with
  | nil =>
    intro _
    rfl
  | cons e rest ih =>
    intro h
    obtain ⟨q, c⟩ := e
    simp only [List.map_cons, List.mem_cons] at h
    push_neg at h
    have hne : ¬q = p := fun hh => h.1 hh.symm
    simp [fsGet, hne, ih h.2]

theorem fsRemove_none_iff (p : Str) : ∀ (fs : FileSys),
    fsRemove fs p = none ↔ fsGet fs p = none := by
  intro fs
  induction fs with
  | nil => simp [fsRemove, fsGet]
  | cons e rest ih =>
    obtain ⟨q, c⟩ := e
    by_cases hq : q = p
    · simp [fsRemove, fsGet, hq]
    · cases hr : fsRemove rest p with
      | none =>
        have := ih.mp hr
        simp [fsRemove, fsGet, hq, hr, this]
      | some fs2 =>
        have : ¬fsGet rest p = none := by
          intro hh
          rw [← ih] at hh
          rw [hh] at hr
          exact Option.noConfusion hr
        simp [fsRemove, fsGet, hq, hr, this]

theorem fsRemove_get_other (p q : Str) (hq : q ≠ p) : ∀ (fs fs2 : FileSys),
    fsRemove fs p = some fs2 → fsGet fs2 q = fsGet fs q := by
  intro fs
  induction fs with
  | nil =>
    intro fs2 h
    exact Option.noConfusion h
  | cons e rest ih =>
    intro fs2 h
    obtain ⟨r, c⟩ := e
    by_cases hr : r = p
    · subst hr
      simp only [fsRemove, if_pos rfl] at h
      have h2 : rest = fs2 := by simpa using h
      subst h2
      have hrq : ¬r = q := fun hh => hq hh.symm
      simp [fsGet, hrq]
    · simp only [fsRemove, hr, if_false] at h
      cases hrem : fsRemove rest p with
      | none =>
        rw [hrem] at h
        exact Option.noConfusion h
      | some fs3 =>
        rw [hrem] at h
        simp only [Option.some.injEq] at h
        subst h
        by_cases hrq : r = q
        · simp [fsGet, hrq]
        · simp [fsGet, hrq, ih fs3 hrem]

theorem fsRemove_get_none (p : Str) : ∀ (fs fs2 : FileSys), (fs.map Prod.fst).Nodup →
    fsRemove fs p = some fs2 → fsGet fs2 p = none := by
  intro fs
  induction fs with
  | nil =>
    intro fs2 _ h
    exact Option.noConfusion h
  | cons e rest ih =>
    intro fs2 hnd h
    obtain ⟨q, c⟩ := e
    simp only [List.map_cons, List.nodup_cons] at hnd
    by_cases hq : q = p
    · subst hq
      simp only [fsRemove, if_pos rfl] at h
      have h2 : rest = fs2 := by simpa using h
      subst h2
      exact fsGet_of_not_mem q rest hnd.1
    · simp only [fsRemove, hq, if_false] at h
      cases hrem : fsRemove rest p with
      | none =>
        rw [hrem] at h
        exact Option.noConfusion h
      | some fs3 =>
        rw [hrem] at h
        simp only [Option.some.injEq] at h
        subst h
        simp [fsGet, hq, ih fs3 hnd.2 hrem]

theorem fsRemove_sublist (p : Str) : ∀ (fs fs2 : FileSys), fsRemove fs p = some fs2 →
    List.Sublist fs2 fs := by
  intro fs
  induction fs with
  | nil =>
    intro fs2 h
    exact Option.noConfusion h
  | cons e rest ih =>
    intro fs2 h
    obtain ⟨q, c⟩ := e
    by_cases hq : q = p
    · subst hq
      simp only [fsRemove, if_pos rfl] at h
      have h2 : rest = fs2 := by simpa using h
      subst h2
      exact List.sublist_cons_self _ _
    · simp only [fsRemove, hq, if_false] at h
      cases hrem : fsRemove rest p with
      | none =>
        rw [hrem] at h
        exact Option.noConfusion h
      | some fs3 =>
        rw [hrem] at h
        simp only [Option.some.injEq] at h
        subst h
        exact List.Sublist.cons₂ _ (ih fs3 hrem)

theorem ne_append_pub (p : Str) : p ≠ p ++ str ".pub" := by
  intro h
  have := congrArg List.length h
  simp [str] at this

theorem deleteEntryHost_eq_none_iff (p : Str) (v : List Str) :
    deleteEntryHost p v = none ↔ p ∈ v ∧ removeFirst v p = [] := by
  unfold deleteEntryHost
  by_cases h1 : p ∈ v
  · by_cases h2 : removeFirst v p = [] <;> simp [h1, h2]
  · simp [h1]

theorem deleteEntryHost_some_val (p : Str) (v r : List Str)
    (h : deleteEntryHost p v = some r) : r = removeFirst v p := by
  unfold deleteEntryHost at h
  by_cases h1 : p ∈ v
  · by_cases h2 : removeFirst v p = []
    · simp [h1, h2] at h
    · simp only [h1, if_true, h2, if_false] at h
      have h3 : removeFirst v p = r := by simpa using h
      exact h3.symm
  · simp only [h1, if_false] at h
    have h3 : v = r := by simpa using h
    rw [← h3, removeFirst_of_not_mem v p h1]

theorem deleteFromConfig_cons (e : Str × List Str) (rest : Config) (p : Str) :
    deleteFromConfig (e :: rest) p =
      (match deleteEntryHost p e.2 with
        | none => deleteFromConfig rest p
        | some r => (e.1, r) :: deleteFromConfig rest p) := by
  rw [deleteFromConfig, List.filterMap_cons]
  cases hdel : deleteEntryHost p e.2 <;> simp [hdel, deleteFromConfig]

theorem keys_deleteFromConfig_sub (m : Config) (p k : Str)
    (h : k ∈ mapKeys (deleteFromConfig m p)) : k ∈ mapKeys m := by
  simp only [mapKeys, List.mem_map] at h ⊢
  obtain ⟨e2, he2, hk⟩ := h
  obtain ⟨e, he, hfe⟩ := List.mem_filterMap.mp he2
  refine ⟨e, he, ?_⟩
  cases hdel : deleteEntryHost p e.2 with
  | none =>
    rw [hdel] at hfe
    exact Option.noConfusion hfe
  | some r =>
    rw [hdel] at hfe
    simp only [Option.some.injEq] at hfe
    rw [← hfe] at hk
    exact hk

theorem mapGet_deleteFromConfig (p h : Str) : ∀ (m : Config), (mapKeys m).Nodup →
    mapGet (deleteFromConfig m p) h = removeFirst (mapGet m h) p := by
  intro m
  induction m with
  | nil =>
    intro _
    simp [deleteFromConfig, mapGet, removeFirst]
  | cons e rest ih =>
    intro hnd
    obtain ⟨k, v⟩ := e
    simp only [mapKeys, List.map_cons, List.nodup_cons] at hnd
    rw [deleteFromConfig_cons]
    by_cases hk : k = h
    · subst hk
      cases hdel : deleteEntryHost p v with
      | none =>
        obtain ⟨hmem, hrf⟩ := (deleteEntryHost_eq_none_iff p v).mp hdel
        have hkeys : k ∉ mapKeys (deleteFromConfig rest p) := by
          intro hh
          exact hnd.1 (by simpa [mapKeys] using keys_deleteFromConfig_sub rest p k hh)
        simp [mapGet, mapGet_of_not_mem _ _ hkeys, hrf]
      | some r =>
        rw [deleteEntryHost_some_val p v r hdel]
        simp [mapGet]
    · cases hdel : deleteEntryHost p v with
      | none => simp [mapGet, hk, ih hnd.2]
      | some r => simp [mapGet, hk, ih hnd.2]

theorem mem_keys_deleteFromConfig (p h : Str) : ∀ (m : Config), (mapKeys m).Nodup →
    (h ∈ mapKeys (deleteFromConfig m p) ↔
      h ∈ mapKeys m ∧ ¬(p ∈ mapGet m h ∧ removeFirst (mapGet m h) p = [])) := by
  intro m
  induction m with
  | nil =>
    intro _
    simp [deleteFromConfig, mapKeys]
  | cons e rest ih =>
    intro hnd
    obtain ⟨k, v⟩ := e
    simp only [mapKeys, List.map_cons, List.nodup_cons] at hnd
    rw [deleteFromConfig_cons]
    by_cases hk : k = h
    · subst hk
      cases hdel : deleteEntryHost p v with
      | none =>
        obtain ⟨hmem, hrf⟩ := (deleteEntryHost_eq_none_iff p v).mp hdel
        have hkeys : k ∉ mapKeys (deleteFromConfig rest p) := by
          intro hh
          exact hnd.1 (by simpa [mapKeys] using keys_deleteFromConfig_sub rest p k hh)
        have hget : mapGet ((k, v) :: rest) k = v := by simp [mapGet]
        rw [hget]
        simp only [hkeys, false_iff]
        intro hcontra
        exact (hcontra.2 ⟨hmem, hrf⟩).elim
      | some r =>
        have hnone : ¬(p ∈ v ∧ removeFirst v p = []) := by
          intro hh
          rw [(deleteEntryHost_eq_none_iff p v).mpr hh] at hdel
          exact Option.noConfusion hdel
        have hget : mapGet ((k, v) :: rest) k = v := by simp [mapGet]
        rw [hget]
        rw [show mapKeys ((k, r) :: deleteFromConfig rest p) =
            k :: mapKeys (deleteFromConfig rest p) from rfl]
        rw [show mapKeys ((k, v) :: rest) = k :: mapKeys rest from rfl]
        simp [hnone]
    · have hkh : ¬k = h := hk
      have hget : mapGet ((k, v) :: rest) h = mapGet rest h := by simp [mapGet, hkh]
      cases hdel : deleteEntryHost p v with
      | none =>
        rw [ih hnd.2, hget]
        rw [show mapKeys ((k, v) :: rest) = k :: mapKeys rest from rfl]
        simp only [List.mem_cons]
        constructor
        · rintro ⟨hm, hnp⟩
          exact ⟨Or.inr hm, hnp⟩
        · rintro ⟨hm | hm, hnp⟩
          · exact absurd hm.symm hkh
          · exact ⟨hm, hnp⟩
      | some r =>
        rw [show mapKeys ((k, r) :: deleteFromConfig rest p) =
            k :: mapKeys (deleteFromConfig rest p) from rfl]
        rw [show mapKeys ((k, v) :: rest) = k :: mapKeys rest from rfl]
        rw [hget]
        simp only [List.mem_cons]
        rw [ih hnd.2]
        constructor
        · rintro (rfl | ⟨hm, hnp⟩)
          · exact absurd rfl hkh
          · exact ⟨Or.inr hm, hnp⟩
        · rintro ⟨rfl | hm, hnp⟩
          · exact absurd rfl hkh
          · exact Or.inr ⟨hm, hnp⟩

/-- C8, amended: delete resolves the key to a full path (absolute
passthrough, otherwise joined under the SSH directory), removes the
private key file then its `.pub` companion, failing fatally as soon as
either removal fails; on success it removes the FIRST entry equal to the
full path from each host's key list (later duplicates within a host
survive), drops a host exactly when that removal empties its list, and
rewrites the config file with the scrubbed mapping. -/
theorem kmC8_delete (sshPath configPath : Str) (fs : FileSys) (m : Config) (key : Str)
    (hfsnd : (fs.map Prod.fst).Nodup) (hnd : (mapKeys m).Nodup)
    (P : Str) (hP : P = getFullKeyPath sshPath key) :
    (isAbs key = true → P = key)
    ∧ (isAbs key = false → P = filepathJoin sshPath key)
    ∧ (fsGet fs P = none → deleteKeyRun sshPath configPath fs m key = .error fs)
    ∧ (∀ fs1, fsRemove fs P = some fs1 → fsGet fs1 (P ++ str ".pub") = none →
        deleteKeyRun sshPath configPath fs m key = .error fs1)
    ∧ (∀ fs1 fs2, fsRemove fs P = some fs1 → fsRemove fs1 (P ++ str ".pub") = some fs2 →
        deleteKeyRun sshPath configPath fs m key =
          .ok (fsSet fs2 configPath (writeConfigStr (deleteFromConfig m P)),
               deleteFromConfig m P)
        ∧ (∀ h, mapGet (deleteFromConfig m P) h = removeFirst (mapGet m h) P)
        ∧ (∀ h, h ∈ mapKeys (deleteFromConfig m P) ↔
            h ∈ mapKeys m ∧ ¬(P ∈ mapGet m h ∧ removeFirst (mapGet m h) P = []))
        ∧ (configPath ≠ P → configPath ≠ P ++ str ".pub" →
            fsGet (fsSet fs2 configPath (writeConfigStr (deleteFromConfig m P))) P = none
            ∧ fsGet (fsSet fs2 configPath (writeConfigStr (deleteFromConfig m P)))
                (P ++ str ".pub") = none
            ∧ fsGet (fsSet fs2 configPath (writeConfigStr (deleteFromConfig m P)))
                configPath = some (writeConfigStr (deleteFromConfig m P)))) := by
  subst hP
  refine ⟨?_, ?_, ?_, ?_, ?_⟩
  · intro h
    simp [getFullKeyPath, h]
  · intro h
    simp [getFullKeyPath, h]
  · intro h
    have := (fsRemove_none_iff _ fs).mpr h
    simp [deleteKeyRun, this]
  · intro fs1 h1 h2
    have := (fsRemove_none_iff _ fs1).mpr h2
    simp [deleteKeyRun, h1, this]
  · intro fs1 fs2 h1 h2
    refine ⟨by simp [deleteKeyRun, h1, h2], ?_, ?_, ?_⟩
    · intro h
      exact mapGet_deleteFromConfig _ h m hnd
    · intro h
      exact mem_keys_deleteFromConfig _ h m hnd
    · intro hcp hcpub
      have hppub : getFullKeyPath sshPath key ≠ getFullKeyPath sshPath key ++ str ".pub" :=
        ne_append_pub _
      refine ⟨?_, ?_, fsGet_set_self fs2 configPath _⟩
      · rw [fsGet_set_ne fs2 configPath _ _ (fun hh => hcp hh.symm)]
        rw [fsRemove_get_other _ _ hppub fs1 fs2 h2]
        exact fsRemove_get_none _ fs fs1 hfsnd h1
      · rw [fsGet_set_ne fs2 configPath _ _ (fun hh => hcpub hh.symm)]
        have hnd1 : (fs1.map Prod.fst).Nodup :=
          hfsnd.sublist ((fsRemove_sublist _ fs fs1 h1).map Prod.fst)
        exact fsRemove_get_none _ fs1 fs2 hnd1 h2

/-- Witness for C8 amended: deleting the relative key `k` under SSH
directory `/s` from a filesystem holding `/s/k`, `/s/k.pub` and the
config file, with host `h` mapped to `/s/k` and host `g` to `/x`. -/
theorem kmC8_delete_witness :
    ((([(str "/s/k", str ""), (str "/s/k.pub", str ""), (str "/s/config", str "old")] :
        FileSys).map Prod.fst).Nodup
    ∧ (mapKeys [(str "h", [str "/s/k"]), (str "g", [str "/x"])]).Nodup
    ∧ (str "/s/k" : Str) = getFullKeyPath (str "/s") (str "k")
    ∧ fsRemove [(str "/s/k", str ""), (str "/s/k.pub", str ""), (str "/s/config", str "old")]
        (str "/s/k") = some [(str "/s/k.pub", str ""), (str "/s/config", str "old")]
    ∧ fsRemove [(str "/s/k.pub", str ""), (str "/s/config", str "old")]
        (str "/s/k" ++ str ".pub") = some [(str "/s/config", str "old")])
    ∧ deleteKeyRun (str "/s") (str "/s/config")
        [(str "/s/k", str ""), (str "/s/k.pub", str ""), (str "/s/config", str "old")]
        [(str "h", [str "/s/k"]), (str "g", [str "/x"])] (str "k") =
      .ok (fsSet [(str "/s/config", str "old")] (str "/s/config")
            (writeConfigStr (deleteFromConfig
              [(str "h", [str "/s/k"]), (str "g", [str "/x"])] (str "/s/k"))),
           deleteFromConfig [(str "h", [str "/s/k"]), (str "g", [str "/x"])] (str "/s/k"))
    ∧ mapGet (deleteFromConfig [(str "h", [str "/s/k"]), (str "g", [str "/x"])] (str "/s/k"))
        (str "h") =
      removeFirst (mapGet [(str "h", [str "/s/k"]), (str "g", [str "/x"])] (str "h"))
        (str "/s/k") :=
  ⟨⟨by decide, by decide, by decide, by decide, by decide⟩,
    ((kmC8_delete (str "/s") (str "/s/config")
        [(str "/s/k", str ""), (str "/s/k.pub", str ""), (str "/s/config", str "old")]
        [(str "h", [str "/s/k"]), (str "g", [str "/x"])] (str "k")
        (by decide) (by decide) (str "/s/k") (by decide)).2.2.2.2
      [(str "/s/k.pub", str ""), (str "/s/config", str "old")]
      [(str "/s/config", str "old")] (by decide) (by decide)).1,
    ((kmC8_delete (str "/s") (str "/s/config")
        [(str "/s/k", str ""), (str "/s/k.pub", str ""), (str "/s/config", str "old")]
        [(str "h", [str "/s/k"]), (str "g", [str "/x"])] (str "k")
        (by decide) (by decide) (str "/s/k") (by decide)).2.2.2.2
      [(str "/s/k.pub", str ""), (str "/s/config", str "old")]
      [(str "/s/config", str "old")] (by decide) (by decide)).2.1 (str "h")⟩

/-- C8, counterexample: deleting `/s/k` from a config where host `h`
lists it twice removes only the first occurrence — an entry equal to the
deleted key's full path survives and the host is not dropped, contrary
to the claim that every such entry is removed. -/
theorem kmC8_cex :
    (deleteKeyRun (str "/s") (str "/s/config")
        [(str "/s/k", []), (str "/s/k.pub", [])]
        [(str "h", [str "/s/k", str "/s/k"])] (str "/s/k")).toOption.map Prod.snd =
      some [(str "h", [str "/s/k"])]
    ∧ str "/s/k" ∈ mapGet [(str "h", [str "/s/k"])] (str "h") := by
  refine ⟨by decide, by decide⟩

end Keyman
